import Mathlib

/-!
# Verification of the escpos-db capability database library

Shallow embedding of the repository's core data structures and algorithms:

* `src/int_map.rs` — `IntMap` / `OwnedIntMap`, the sorted integer-keyed
  lookup structures (`from_entries`, `get`, `insert`, `FromIterator`,
  `Extend`);
* `src/codegen/src/main.rs` — the schema loader (`deserialize_encoding_data`),
  the unit resolver (`Media::get_width`) and the feature bit-set emission;
* `src/lib.rs` — the `Features` bit-flag type (`Features::_with`).

Modelling conventions:

* Rust `u8`/`u16`/`usize` keys and indices are modelled as `Nat`; the code
  only ever compares them, and `Nat` comparison agrees with the machine
  comparison on in-range values.
* Rust `f32` values are modelled as `ℚ`.  The claims settled against the
  floating-point code either do not depend on rounding at all (pure case
  analysis) or are evaluated at inputs where the `f32` computation is
  exact and agrees with the rational one (this is spelled out at the
  relevant theorem).
* Panics are modelled as `none` / `.error` results.
* Rust's std stable sort (`slice::sort_by_key`) is modelled by Mathlib's
  `List.insertionSort`, which is a stable sort: the model relies only on
  the behaviour Rust documents (a stable sorted permutation), which
  determines the output list uniquely.
* Rust's std `slice::binary_search_by_key` is modelled after the actual
  branchless implementation in `core::slice` (no early exit on `Equal`;
  on success the returned index of an equal run is its last element).
-/

set_option maxRecDepth 8000

namespace EscposDb

/-- Model of `fn key_f<T>((k, _): &(u8, T)) -> u8 { *k }` from `src/int_map.rs`:
the sort/search key extractor used throughout the map code. -/
def key_f {T : Type} (e : Nat × T) : Nat := e.1

/-! ## Rust `core::slice::binary_search_by_key`

`IntMap::get` and `OwnedIntMap::insert` call
`self.entries.binary_search_by_key(&k, key_f)`.  The following models the
implementation in Rust's standard library:

```rust
let mut size = self.len();
if size == 0 { return Err(0); }
let mut base = 0usize;
while size > 1 {
    let half = size / 2;
    let mid = base + half;
    let cmp = f(unsafe { self.get_unchecked(mid) });
    base = if cmp == Greater { base } else { mid };
    size -= half;
}
let cmp = f(unsafe { self.get_unchecked(base) });
if cmp == Equal { Ok(base) } else { Err(base + (cmp == Less) as usize) }
```

Here `f(e) = key_f(e).cmp(&k)`, so `cmp == Greater` is `k < keys[mid]`,
`cmp == Less` is `keys[base] < k`.  We model it over the list of keys. -/

/-- The `while size > 1` loop of Rust's `binary_search_by` (see above):
returns the final value of `base`. -/
def bsLoop (keys : List Nat) (k : Nat) (base size : Nat) : Nat :=
  if h : size ≤ 1 then base
  else
    let half := size / 2
    let mid := base + half
    let base' := if k < keys.getD mid 0 then base else mid
    bsLoop keys k base' (size - half)
termination_by size
decreasing_by
  simp only [not_le] at h
  omega

/-- Model of `slice::binary_search_by_key(&k, key_f)` over the list of
keys: `.ok i` is Rust's `Ok(i)` (key found at index `i`), `.error i` is
`Err(i)` (insertion point `i`). -/
def binary_search_by_key (keys : List Nat) (k : Nat) : Except Nat Nat :=
  if keys.isEmpty then .error 0
  else
    let base := bsLoop keys k 0 keys.length
    let kb := keys.getD base 0
    if kb = k then .ok base
    else .error (base + if kb < k then 1 else 0)

/-! ## `IntMap` (src/int_map.rs) -/

/-- Model of `IntMap<T>`: the (borrowed) sorted map over `entries: [(u8, T)]`. -/
structure IntMap (T : Type) where
  entries : List (Nat × T)
deriving DecidableEq

/-- The adjacent-key check loop of `IntMap::from_entries`: starting from
`prev`, every subsequent key must be strictly greater than the one
before it (`if cur <= prev { panic!(...) }`). -/
def checkFrom {T : Type} (prev : Nat) : List (Nat × T) → Bool
  | [] => true
  | e :: rest => if e.1 ≤ prev then false else checkFrom e.1 rest

/-- Model of `IntMap::from_entries(entries)`: panics (modelled as `none`) unless the
keys are strictly increasing by index; otherwise returns the map over
exactly the given entries. -/
def IntMap.from_entries {T : Type} (entries : List (Nat × T)) : Option (IntMap T) :=
  let ok := match entries with
    | [] => true
    | e :: rest => checkFrom e.1 rest
  if ok then some ⟨entries⟩ else none

/-- Model of `IntMap::get(&self, k)`: binary search by key; on `Ok(i)` return
`Some(&entries[i].1)`, else `None`. -/
def IntMap.get {T : Type} (m : IntMap T) (k : Nat) : Option T :=
  match binary_search_by_key (m.entries.map key_f) k with
  | .ok i => (m.entries.get? i).map Prod.snd
  | .error _ => none

/-! ## `OwnedIntMap` (src/int_map.rs) -/

/-- Model of `OwnedIntMap<T>`: the owned map over `entries: Vec<(u8, T)>`. -/
structure OwnedIntMap (T : Type) where
  entries : List (Nat × T)
deriving DecidableEq

/-- The `Deref<Target = IntMap<T>>` impl: an `OwnedIntMap` borrows as the
`IntMap` over the same entries. -/
def OwnedIntMap.deref {T : Type} (m : OwnedIntMap T) : IntMap T := ⟨m.entries⟩

/-- Lookup on an `OwnedIntMap`, through the `Deref` impl. -/
def OwnedIntMap.get {T : Type} (m : OwnedIntMap T) (k : Nat) : Option T :=
  m.deref.get k

/-- Replace the value (second component) at index `i`, keeping the key:
models `mem::replace(&mut self.entries[i].1, val)`'s write. -/
def setVal {T : Type} : List (Nat × T) → Nat → T → List (Nat × T)
  | [], _, _ => []
  | e :: rest, 0, v => (e.1, v) :: rest
  | e :: rest, n + 1, v => e :: setVal rest n v

/-- Model of `OwnedIntMap::insert(key, val)`: binary search; on `Ok(i)` replace the
value at `i` and return the previous one, on `Err(i)` insert `(key, val)`
at index `i` and return `None`.  The result pairs the returned `Option<T>`
with the updated map. -/
def OwnedIntMap.insert {T : Type} (m : OwnedIntMap T) (key : Nat) (val : T) :
    Option T × OwnedIntMap T :=
  match binary_search_by_key (m.entries.map key_f) key with
  | .ok i => ((m.entries.get? i).map Prod.snd, ⟨setVal m.entries i val⟩)
  | .error i => (none, ⟨m.entries.insertIdx i (key, val)⟩)

/-- Model of Rust's stable `slice::sort_by_key(key_f)`: a stable sort by
the first component (`List.insertionSort` is stable, which matches the
contract Rust documents for `sort_by_key`). -/
def sort_by_key {T : Type} (l : List (Nat × T)) : List (Nat × T) :=
  l.insertionSort (fun a b => a.1 ≤ b.1)

/-- The `FromIterator<(u8, T)>` impl for `OwnedIntMap`: collect the items
into a vector and `sort_by_key(key_f)` — no deduplication is performed. -/
def OwnedIntMap.from_iter {T : Type} (l : List (Nat × T)) : OwnedIntMap T :=
  ⟨sort_by_key l⟩

/-- The `Extend<(u8, T)>` impl for `OwnedIntMap`.  The iterator is modelled
as the list of items it yields before either completing (`panics = false`)
or panicking (`panics = true`).  The `DropGuard` truncates the vector back
to its pre-extend length when the iterator panics mid-way; on completion
the guard is forgotten and the whole vector is sorted once. -/
def OwnedIntMap.extend {T : Type} (m : OwnedIntMap T) (produced : List (Nat × T))
    (panics : Bool) : OwnedIntMap T :=
  let ext := m.entries ++ produced
  if panics then ⟨ext.take m.entries.length⟩
  else ⟨sort_by_key ext⟩

/-- The `ToOwned` impl for `IntMap` is `todo!()`: it panics unconditionally
(modelled as `.error`), producing no `OwnedIntMap`. -/
def IntMap.to_owned {T : Type} (_m : IntMap T) : Except String (OwnedIntMap T) :=
  .error "not yet implemented"

/-! ## Correctness of the binary-search model -/

/-- In a `≤`-sorted key list, keys are monotone in the index. -/
lemma sorted_getD_mono {keys : List Nat} (hs : keys.Pairwise (· ≤ ·))
    {i j : Nat} (hij : i ≤ j) (hj : j < keys.length) :
    keys.getD i 0 ≤ keys.getD j 0 := by
  rcases Nat.lt_or_ge i j with h | h
  · rw [List.getD_eq_getElem _ _ (Nat.lt_trans h hj), List.getD_eq_getElem _ _ hj]
    exact List.pairwise_iff_getElem.mp hs i j (Nat.lt_trans h hj) hj h
  · have : i = j := Nat.le_antisymm hij h
    subst this
    exact Nat.le_refl _

/-- Loop invariant for `bsLoop` on a `≤`-sorted key list: the final `base`
is in range, the key at `base` is `≤ k` unless `base = 0`, and every key
strictly after `base` is `> k`. -/
lemma bsLoop_spec {keys : List Nat} {k : Nat} (hs : keys.Pairwise (· ≤ ·)) :
    ∀ size base, 1 ≤ size → base + size ≤ keys.length →
      (base = 0 ∨ keys.getD base 0 ≤ k) →
      (∀ j, base + size ≤ j → j < keys.length → k < keys.getD j 0) →
      bsLoop keys k base size < keys.length ∧
        (bsLoop keys k base size = 0 ∨ keys.getD (bsLoop keys k base size) 0 ≤ k) ∧
        ∀ j, bsLoop keys k base size < j → j < keys.length → k < keys.getD j 0 := by
  intro size
  induction size using Nat.strong_induction_on with
  | _ size ih =>
    intro base h1 h2 h3 h4
    rw [bsLoop]
    by_cases hsz : size ≤ 1
    · rw [dif_pos hsz]
      refine ⟨by omega, h3, fun j hj hjlen => h4 j (by omega) hjlen⟩
    · rw [dif_neg hsz]
      dsimp only
      have hhalf : 1 ≤ size / 2 := by omega
      have hhalf2 : size / 2 ≤ size - size / 2 := by omega
      have hlt : size - size / 2 < size := by omega
      by_cases hc : k < keys.getD (base + size / 2) 0
      · rw [if_pos hc]
        refine ih (size - size / 2) hlt base (by omega) (by omega) h3 ?_
        intro j hj hjlen
        rcases Nat.lt_or_ge j (base + size) with hj2 | hj2
        · calc k < keys.getD (base + size / 2) 0 := hc
            _ ≤ keys.getD j 0 := sorted_getD_mono hs (by omega) hjlen
        · exact h4 j hj2 hjlen
      · rw [if_neg hc]
        refine ih (size - size / 2) hlt (base + size / 2) (by omega) (by omega)
          (Or.inr (Nat.le_of_not_lt hc)) ?_
        intro j hj hjlen
        exact h4 j (by omega) hjlen

/-- Running `binary_search_by_key` on a `≤`-sorted key list: a successful result
is an in-range index holding exactly `k`, and it is the *last* such index
(every later key is strictly greater). -/
lemma bsearch_ok_spec {keys : List Nat} {k i : Nat} (hs : keys.Pairwise (· ≤ ·))
    (h : binary_search_by_key keys k = .ok i) :
    i < keys.length ∧ keys.getD i 0 = k ∧
      ∀ j, i < j → j < keys.length → k < keys.getD j 0 := by
  unfold binary_search_by_key at h
  by_cases hemp : keys.isEmpty
  · rw [if_pos hemp] at h
    exact absurd h (by simp)
  · rw [if_neg hemp] at h
    simp only at h
    have hlen : 1 ≤ keys.length := by
      cases keys with
      | nil => exact absurd rfl hemp
      | cons a l => exact Nat.succ_le_succ (Nat.zero_le _)
    obtain ⟨hb1, _hb2, hb3⟩ :=
      bsLoop_spec hs keys.length 0 hlen (by omega) (Or.inl rfl)
        (fun j hj hjlen => absurd hjlen (by omega))
    by_cases heq : keys.getD (bsLoop keys k 0 keys.length) 0 = k
    · rw [if_pos heq] at h
      cases h
      exact ⟨hb1, heq, hb3⟩
    · rw [if_neg heq] at h
      exact absurd h (by simp)

/-- Running `binary_search_by_key` on a `≤`-sorted key list: a failed result is an
insertion point `i ≤ len` with every key before `i` strictly below `k` and
every key from `i` on strictly above `k`. -/
lemma bsearch_err_spec {keys : List Nat} {k i : Nat} (hs : keys.Pairwise (· ≤ ·))
    (h : binary_search_by_key keys k = .error i) :
    i ≤ keys.length ∧ (∀ j, j < i → keys.getD j 0 < k) ∧
      ∀ j, i ≤ j → j < keys.length → k < keys.getD j 0 := by
  unfold binary_search_by_key at h
  by_cases hemp : keys.isEmpty
  · rw [if_pos hemp] at h
    cases h
    have : keys.length = 0 := by
      cases keys with
      | nil => rfl
      | cons a l => exact absurd hemp (by simp)
    refine ⟨by omega, fun j hj => absurd hj (by omega), fun j hj hjlen => by omega⟩
  · rw [if_neg hemp] at h
    simp only at h
    have hlen : 1 ≤ keys.length := by
      cases keys with
      | nil => exact absurd rfl hemp
      | cons a l => exact Nat.succ_le_succ (Nat.zero_le _)
    obtain ⟨hb1, hb2, hb3⟩ :=
      bsLoop_spec hs keys.length 0 hlen (by omega) (Or.inl rfl)
        (fun j hj hjlen => absurd hjlen (by omega))
    set b := bsLoop keys k 0 keys.length with hbdef
    by_cases heq : keys.getD b 0 = k
    · rw [if_pos heq] at h
      exact absurd h (by simp)
    · rw [if_neg heq] at h
      by_cases hltb : keys.getD b 0 < k
      · rw [if_pos hltb] at h
        cases h
        refine ⟨by omega, ?_, ?_⟩
        · intro j hj
          calc keys.getD j 0 ≤ keys.getD b 0 := sorted_getD_mono hs (by omega) hb1
            _ < k := hltb
        · intro j hj hjlen
          exact hb3 j (by omega) hjlen
      · rw [if_neg hltb] at h
        cases h
        have hbk : k < keys.getD b 0 := by
          rcases Nat.lt_trichotomy (keys.getD b 0) k with h' | h' | h'
          · exact absurd h' hltb
          · exact absurd h' heq
          · exact h'
        have hb0 : b = 0 := by
          rcases hb2 with h' | h'
          · exact h'
          · omega
        refine ⟨by omega, fun j hj => absurd hj (by omega), ?_⟩
        intro j hj hjlen
        rcases Nat.eq_or_lt_of_le hj with h' | h'
        · have hjb : j = b := by omega
          rw [hjb]
          exact hbk
        · exact hb3 j (by omega) hjlen

/-- On a `≤`-sorted key list, searching for a key that is present succeeds. -/
lemma bsearch_mem {keys : List Nat} {k : Nat} (hs : keys.Pairwise (· ≤ ·))
    (hmem : k ∈ keys) : ∃ i, binary_search_by_key keys k = .ok i := by
  obtain ⟨n, hn, hkn⟩ := List.mem_iff_getElem.mp hmem
  cases hres : binary_search_by_key keys k with
  | ok i => exact ⟨i, rfl⟩
  | error i =>
    obtain ⟨hi1, hi2, hi3⟩ := bsearch_err_spec hs hres
    have hgd : keys.getD n 0 = k := by
      rw [List.getD_eq_getElem _ _ hn]
      exact hkn
    rcases Nat.lt_or_ge n i with h' | h'
    · have := hi2 n h'
      omega
    · have := hi3 n h' hn
      omega

/-! ## `from_entries` and `get` correctness -/

/-- The adjacent-key check of `from_entries` accepts exactly the chains
`prev < k₁ < k₂ < …` over the keys of the remaining entries. -/
lemma checkFrom_iff {T : Type} (prev : Nat) (l : List (Nat × T)) :
    checkFrom prev l = true ↔ List.Chain (· < ·) prev (l.map key_f) := by
  induction l generalizing prev with
  | nil =>
    simp only [checkFrom, List.map_nil]
    exact ⟨fun _ => List.Chain.nil, fun _ => trivial⟩
  | cons e rest ih =>
    simp only [checkFrom, List.map_cons, List.chain_cons, key_f]
    by_cases hle : e.1 ≤ prev
    · rw [if_pos hle]
      constructor
      · intro h
        exact absurd h (by simp)
      · intro ⟨h1, _⟩
        exact absurd h1 (by omega)
    · rw [if_neg hle]
      rw [ih e.1]
      constructor
      · intro h
        exact ⟨by omega, h⟩
      · intro ⟨_, h⟩
        exact h

/-- Full characterization of `IntMap::from_entries`: it returns the map
over exactly the given entries when their keys are strictly increasing by
index, and panics (`none`) otherwise. -/
lemma from_entries_eq {T : Type} (entries : List (Nat × T)) :
    IntMap.from_entries entries =
      if (entries.map key_f).Pairwise (· < ·) then some ⟨entries⟩ else none := by
  cases entries with
  | nil => simp [IntMap.from_entries]
  | cons e rest =>
    unfold IntMap.from_entries
    dsimp only
    have hchain : checkFrom e.1 rest = true ↔
        List.Chain' (· < ·) ((e :: rest).map key_f) := by
      rw [checkFrom_iff]
      simp only [List.map_cons]
      rfl
    rw [List.chain'_iff_pairwise] at hchain
    by_cases hc : checkFrom e.1 rest = true
    · rw [if_pos hc, if_pos (hchain.mp hc)]
    · rw [if_neg hc, if_neg (fun hp => hc (hchain.mpr hp))]

/-- Strictly increasing keys are `≤`-sorted. -/
lemma pairwise_le_of_lt {keys : List Nat} (h : keys.Pairwise (· < ·)) :
    keys.Pairwise (· ≤ ·) :=
  h.imp Nat.le_of_lt

/-- Strictly increasing keys are duplicate-free. -/
lemma nodup_of_pairwise_lt {keys : List Nat} (h : keys.Pairwise (· < ·)) :
    keys.Nodup :=
  h.imp Nat.ne_of_lt

/-- Correctness of `IntMap::get` on a map whose keys satisfy the strictly-increasing
invariant: present keys resolve to their (unique) value, absent keys to
`none`. -/
lemma IntMap.get_spec {T : Type} (m : IntMap T)
    (hinv : (m.entries.map key_f).Pairwise (· < ·)) (k : Nat) :
    (∀ v, (k, v) ∈ m.entries → m.get k = some v) ∧
      (k ∉ m.entries.map key_f → m.get k = none) := by
  have hs : (m.entries.map key_f).Pairwise (· ≤ ·) := pairwise_le_of_lt hinv
  have hnd : (m.entries.map key_f).Nodup := nodup_of_pairwise_lt hinv
  constructor
  · intro v hmem
    have hkmem : k ∈ m.entries.map key_f :=
      List.mem_map.mpr ⟨(k, v), hmem, rfl⟩
    obtain ⟨i, hok⟩ := bsearch_mem hs hkmem
    obtain ⟨hi1, hi2, _⟩ := bsearch_ok_spec hs hok
    have hi1' : i < m.entries.length := by
      rw [List.length_map] at hi1
      exact hi1
    obtain ⟨j, hj, hje⟩ := List.mem_iff_getElem.mp hmem
    have hij : i = j := by
      have hkeyi : (m.entries.map key_f)[i] = k := by
        rw [← List.getD_eq_getElem _ 0 hi1]
        exact hi2
      have hj2 : j < (m.entries.map key_f).length := by simpa using hj
      have hkeyj : (m.entries.map key_f)[j] = k := by
        rw [List.getElem_map]
        rw [hje]
        rfl
      have hinj := List.nodup_iff_injective_get.mp hnd
      have hgeteq : (m.entries.map key_f).get ⟨i, hi1⟩ =
          (m.entries.map key_f).get ⟨j, hj2⟩ := by
        simp only [List.get_eq_getElem]
        rw [hkeyi, hkeyj]
      exact congrArg Fin.val (hinj hgeteq)
    unfold IntMap.get
    rw [hok]
    subst hij
    show Option.map Prod.snd (m.entries.get? i) = some v
    rw [List.get?_eq_getElem?, List.getElem?_eq_getElem hj, hje]
    rfl
  · intro hnot
    unfold IntMap.get
    cases hres : binary_search_by_key (m.entries.map key_f) k with
    | ok i =>
      obtain ⟨hi1, hi2, _⟩ := bsearch_ok_spec hs hres
      exfalso
      apply hnot
      rw [← hi2, List.getD_eq_getElem _ 0 hi1]
      exact List.getElem_mem hi1
    | error i => rfl

/-! ## `OwnedIntMap::insert` correctness -/

/-- The helper `setVal` preserves the length of the entry list. -/
lemma setVal_length {T : Type} : ∀ (l : List (Nat × T)) (i : Nat) (v : T),
    (setVal l i v).length = l.length
  | [], _, _ => rfl
  | _ :: rest, 0, _ => rfl
  | _ :: rest, n + 1, v => by
    simp only [setVal, List.length_cons, setVal_length rest n v]

/-- The helper `setVal` does not change the keys. -/
lemma setVal_map_key {T : Type} : ∀ (l : List (Nat × T)) (i : Nat) (v : T),
    (setVal l i v).map key_f = l.map key_f
  | [], _, _ => rfl
  | _ :: rest, 0, _ => rfl
  | _ :: rest, n + 1, v => by
    simp only [setVal, List.map_cons, setVal_map_key rest n v]

/-- After `setVal l i v`, index `i` holds the old key paired with `v`. -/
lemma setVal_getElem {T : Type} : ∀ (l : List (Nat × T)) (i : Nat) (v : T)
    (h : i < l.length) (h2 : i < (setVal l i v).length),
    (setVal l i v)[i] = (l[i].1, v)
  | e :: rest, 0, v, _, _ => rfl
  | e :: rest, n + 1, v, h, h2 => by
    simp only [setVal, List.getElem_cons_succ]
    exact setVal_getElem rest n v (by simpa using h) (by rw [setVal_length rest n v]; simpa using h)

/-- Mapping commutes with `List.insertIdx`. -/
lemma map_insertIdx {α β : Type} (f : α → β) :
    ∀ (n : Nat) (a : α) (l : List α),
      (l.insertIdx n a).map f = (l.map f).insertIdx n (f a)
  | 0, a, l => by simp [List.insertIdx_zero]
  | n + 1, a, [] => rfl
  | n + 1, a, b :: l => by
    simp only [List.insertIdx_succ_cons, List.map_cons, map_insertIdx f n a l]

/-- Indexing only depends on the index value, not the bound proof. -/
lemma getElem_idx_congr {α : Type} (l : List α) {p q : Nat} (h : p = q)
    (hp : p < l.length) (hq : q < l.length) : l[p] = l[q] := by
  subst h
  rfl

/-- Inserting key `k` at an index `i` that splits the (strictly sorted)
keys into a `< k` prefix and a `> k` suffix keeps the keys strictly
sorted. -/
lemma pairwise_lt_insertIdx {keys : List Nat} {k i : Nat}
    (hinv : keys.Pairwise (· < ·)) (hi : i ≤ keys.length)
    (hlo : ∀ j, j < i → keys.getD j 0 < k)
    (hhi : ∀ j, i ≤ j → j < keys.length → k < keys.getD j 0) :
    (keys.insertIdx i k).Pairwise (· < ·) := by
  rw [List.pairwise_iff_getElem]
  intro a b ha hb hab
  have hlen : (keys.insertIdx i k).length = keys.length + 1 :=
    List.length_insertIdx i keys hi
  rw [hlen] at ha hb
  have hga : ∀ (p : Nat) (hp : p < keys.length + 1),
      (keys.insertIdx i k)[p] =
        if hpi : p < i then keys[p]
        else if hpeq : p = i then k
        else keys[p - 1] := by
    intro p hp
    by_cases h1 : p < i
    · rw [dif_pos h1]
      exact List.getElem_insertIdx_of_lt keys k i p h1 (by omega)
    · rw [dif_neg h1]
      by_cases h2 : p = i
      · rw [dif_pos h2]
        subst h2
        exact List.getElem_insertIdx_self keys k p hi
      · rw [dif_neg h2]
        have h3 := List.getElem_insertIdx_add_succ keys k i (p - 1 - i)
          (by omega) (by omega)
        have hbp : p < (keys.insertIdx i k).length := by rw [hlen]; omega
        have hbq : i + (p - 1 - i) + 1 < (keys.insertIdx i k).length := by
          rw [hlen]
          omega
        have hkp : i + (p - 1 - i) < keys.length := by omega
        have hkq : p - 1 < keys.length := by omega
        have e1 : (keys.insertIdx i k)[p] =
            (keys.insertIdx i k)[i + (p - 1 - i) + 1] :=
          getElem_idx_congr _ (by omega) hbp hbq
        have e2 : keys[i + (p - 1 - i)] = keys[p - 1] :=
          getElem_idx_congr _ (by omega) hkp hkq
        rw [e1, h3, e2]
  have hkey : ∀ (p : Nat) (hp : p < keys.length), keys[p] = keys.getD p 0 :=
    fun p hp => (List.getD_eq_getElem keys 0 hp).symm
  have horder := List.pairwise_iff_getElem.mp hinv
  rw [hga a (by omega), hga b (by omega)]
  by_cases ha1 : a < i
  · rw [dif_pos ha1]
    by_cases hb1 : b < i
    · rw [dif_pos hb1]
      exact horder a b (by omega) (by omega) hab
    · rw [dif_neg hb1]
      by_cases hb2 : b = i
      · rw [dif_pos hb2]
        rw [hkey a (by omega)]
        exact hlo a ha1
      · rw [dif_neg hb2]
        have hab' : a < b - 1 ∨ a = b - 1 := by omega
        rcases hab' with h' | h'
        · exact horder a (b - 1) (by omega) (by omega) h'
        · subst h'
          rw [hkey (b - 1)]
          calc keys.getD (b - 1) 0 < k := hlo (b - 1) ha1
            _ < keys.getD (b - 1) 0 := by
              exact absurd ha1 (by omega)
  · rw [dif_neg ha1]
    by_cases ha2 : a = i
    · rw [dif_pos ha2]
      rw [dif_neg (by omega : ¬ b < i), dif_neg (by omega : ¬ b = i)]
      rw [hkey (b - 1) (by omega)]
      exact hhi (b - 1) (by omega) (by omega)
    · rw [dif_neg ha2]
      rw [dif_neg (by omega : ¬ b < i), dif_neg (by omega : ¬ b = i)]
      exact horder (a - 1) (b - 1) (by omega) (by omega) (by omega)

/-- On a strictly-sorted entry list, binary search for a present key finds
exactly the entry holding it. -/
lemma bsearch_idx_of_mem {T : Type} {entries : List (Nat × T)}
    (hinv : (entries.map key_f).Pairwise (· < ·)) {k : Nat} {vold : T}
    (hmem : (k, vold) ∈ entries) :
    ∃ i, ∃ h : i < entries.length,
      binary_search_by_key (entries.map key_f) k = .ok i ∧
        entries[i] = (k, vold) := by
  have hs : (entries.map key_f).Pairwise (· ≤ ·) := pairwise_le_of_lt hinv
  have hnd : (entries.map key_f).Nodup := nodup_of_pairwise_lt hinv
  have hkmem : k ∈ entries.map key_f := List.mem_map.mpr ⟨(k, vold), hmem, rfl⟩
  obtain ⟨i, hok⟩ := bsearch_mem hs hkmem
  obtain ⟨hi1, hi2, _⟩ := bsearch_ok_spec hs hok
  have hi1' : i < entries.length := by
    rw [List.length_map] at hi1
    exact hi1
  obtain ⟨j, hj, hje⟩ := List.mem_iff_getElem.mp hmem
  have hij : i = j := by
    have hkeyi : (entries.map key_f)[i] = k := by
      rw [← List.getD_eq_getElem _ 0 hi1]
      exact hi2
    have hj2 : j < (entries.map key_f).length := by simpa using hj
    have hkeyj : (entries.map key_f)[j] = k := by
      rw [List.getElem_map, hje]
      rfl
    have hinj := List.nodup_iff_injective_get.mp hnd
    have hgeteq : (entries.map key_f).get ⟨i, hi1⟩ =
        (entries.map key_f).get ⟨j, hj2⟩ := by
      simp only [List.get_eq_getElem]
      rw [hkeyi, hkeyj]
    exact congrArg Fin.val (hinj hgeteq)
  subst hij
  exact ⟨i, hi1', hok, hje⟩

/-- Behaviour of `OwnedIntMap::insert` on a key already present (invariant assumed):
returns the prior value, keeps the length and the keys (hence the
invariant), and afterwards `get` finds the new value. -/
lemma insert_spec_mem {T : Type} (m : OwnedIntMap T)
    (hinv : (m.entries.map key_f).Pairwise (· < ·)) {k : Nat} {vold : T}
    (v : T) (hmem : (k, vold) ∈ m.entries) :
    (m.insert k v).1 = some vold ∧
      (m.insert k v).2.entries.length = m.entries.length ∧
      ((m.insert k v).2.entries.map key_f) = m.entries.map key_f ∧
      (m.insert k v).2.get k = some v := by
  obtain ⟨i, hi, hok, hei⟩ := bsearch_idx_of_mem hinv hmem
  unfold OwnedIntMap.insert
  rw [hok]
  refine ⟨?_, ?_, ?_, ?_⟩
  · show (m.entries.get? i).map Prod.snd = some vold
    rw [List.get?_eq_getElem?, List.getElem?_eq_getElem hi, hei]
    rfl
  · exact setVal_length m.entries i v
  · exact setVal_map_key m.entries i v
  · show OwnedIntMap.get ⟨setVal m.entries i v⟩ k = some v
    have hkeys : ((setVal m.entries i v).map key_f) = m.entries.map key_f :=
      setVal_map_key m.entries i v
    have hinv' : (((⟨setVal m.entries i v⟩ : OwnedIntMap T).deref.entries).map
        key_f).Pairwise (· < ·) := by
      show ((setVal m.entries i v).map key_f).Pairwise (· < ·)
      rw [hkeys]
      exact hinv
    have hmem' : (k, v) ∈ setVal m.entries i v := by
      refine List.mem_iff_getElem.mpr ⟨i, by rw [setVal_length]; exact hi, ?_⟩
      rw [setVal_getElem m.entries i v hi (by rw [setVal_length]; exact hi), hei]
    exact (IntMap.get_spec _ hinv' k).1 v hmem'

/-- Behaviour of `OwnedIntMap::insert` of a new key (invariant assumed): returns
`none`, grows the length by one, keeps the keys strictly sorted, and
afterwards `get` finds the new value. -/
lemma insert_spec_new {T : Type} (m : OwnedIntMap T)
    (hinv : (m.entries.map key_f).Pairwise (· < ·)) {k : Nat} (v : T)
    (hnot : k ∉ m.entries.map key_f) :
    (m.insert k v).1 = none ∧
      (m.insert k v).2.entries.length = m.entries.length + 1 ∧
      ((m.insert k v).2.entries.map key_f).Pairwise (· < ·) ∧
      (m.insert k v).2.get k = some v := by
  have hs : (m.entries.map key_f).Pairwise (· ≤ ·) := pairwise_le_of_lt hinv
  obtain ⟨i, herr⟩ : ∃ i, binary_search_by_key (m.entries.map key_f) k = .error i := by
    cases hres : binary_search_by_key (m.entries.map key_f) k with
    | ok i =>
      obtain ⟨hi1, hi2, _⟩ := bsearch_ok_spec hs hres
      exact absurd (by
        rw [← hi2, List.getD_eq_getElem _ 0 hi1]
        exact List.getElem_mem hi1) hnot
    | error i => exact ⟨i, rfl⟩
  obtain ⟨hi1, hlo, hhi⟩ := bsearch_err_spec hs herr
  have hilen : i ≤ m.entries.length := by
    rw [List.length_map] at hi1
    exact hi1
  unfold OwnedIntMap.insert
  rw [herr]
  have hkeys : ((m.entries.insertIdx i (k, v)).map key_f) =
      (m.entries.map key_f).insertIdx i k :=
    map_insertIdx key_f i (k, v) m.entries
  have hsorted : (((m.entries.insertIdx i (k, v)).map key_f)).Pairwise (· < ·) := by
    rw [hkeys]
    refine pairwise_lt_insertIdx hinv (by simpa using hilen) hlo ?_
    intro j hj hjlen
    exact hhi j hj hjlen
  refine ⟨rfl, ?_, hsorted, ?_⟩
  · exact List.length_insertIdx i m.entries hilen
  · show OwnedIntMap.get ⟨m.entries.insertIdx i (k, v)⟩ k = some v
    have hmem' : (k, v) ∈ m.entries.insertIdx i (k, v) :=
      (List.mem_insertIdx hilen).mpr (Or.inl rfl)
    exact (IntMap.get_spec _ hsorted k).1 v hmem'

/-! ## Stable sort (`FromIterator` / `Extend`) properties -/

instance instDecKeyLE {T : Type} :
    DecidableRel (fun (a b : Nat × T) => a.1 ≤ b.1) :=
  fun a b => Nat.decLe a.1 b.1

instance instTotalKeyLE {T : Type} :
    IsTotal (Nat × T) (fun a b => a.1 ≤ b.1) :=
  ⟨fun a b => Nat.le_total a.1 b.1⟩

instance instTransKeyLE {T : Type} :
    IsTrans (Nat × T) (fun a b => a.1 ≤ b.1) :=
  ⟨fun _ _ _ h h' => Nat.le_trans h h'⟩

/-- The sorted output of `sort_by_key` is a permutation of the input. -/
lemma sort_by_key_perm {T : Type} (l : List (Nat × T)) :
    (sort_by_key l).Perm l :=
  List.perm_insertionSort _ l

/-- The output of `sort_by_key` has `≤`-sorted keys. -/
lemma sort_by_key_sorted {T : Type} (l : List (Nat × T)) :
    ((sort_by_key l).map key_f).Pairwise (· ≤ ·) := by
  rw [List.pairwise_map]
  exact List.sorted_insertionSort (fun a b => a.1 ≤ b.1) l

/-- Stability of `orderedInsert` seen through `filter` by an exact key:
the skipped prefix consists of strictly smaller keys, so an inserted
element with the filtered key lands in front of every kept element. -/
lemma filter_orderedInsert_key {T : Type} (k : Nat) (x : Nat × T) :
    ∀ s : List (Nat × T),
      (List.orderedInsert (fun a b => a.1 ≤ b.1) x s).filter
          (fun e => e.1 == k) =
        if x.1 = k then x :: s.filter (fun e => e.1 == k)
        else s.filter (fun e => e.1 == k)
  | [] => by
    by_cases hx : x.1 = k
    · simp [List.orderedInsert, List.filter, hx]
    · have hbeq : (x.1 == k) = false := by simpa using hx
      simp only [List.orderedInsert, List.filter, hbeq]
      rw [if_neg hx]
  | y :: ys => by
    simp only [List.orderedInsert]
    by_cases hle : x.1 ≤ y.1
    · rw [if_pos hle]
      by_cases hx : x.1 = k
      · rw [if_pos hx]
        rw [List.filter_cons_of_pos (by simpa using hx)]
      · rw [if_neg hx]
        rw [List.filter_cons_of_neg (by simpa using hx)]
    · rw [if_neg hle]
      have hyk : ¬ y.1 = k ∨ ¬ x.1 = k := by
        by_cases hx : x.1 = k
        · left
          omega
        · right
          exact hx
      by_cases hy : y.1 = k
      · rw [List.filter_cons_of_pos (by simpa using hy)]
        have hx : ¬ x.1 = k := by
          rcases hyk with h | h
          · exact absurd hy h
          · exact h
        rw [if_neg hx]
        rw [filter_orderedInsert_key k x ys, if_neg hx]
        rw [List.filter_cons_of_pos (by simpa using hy)]
      · rw [List.filter_cons_of_neg (by simpa using hy)]
        rw [filter_orderedInsert_key k x ys]
        by_cases hx : x.1 = k
        · rw [if_pos hx, if_pos hx]
          rw [List.filter_cons_of_neg (by simpa using hy)]
        · rw [if_neg hx, if_neg hx]
          rw [List.filter_cons_of_neg (by simpa using hy)]

/-- Stability of `sort_by_key`: filtering by an exact key commutes with
the sort, i.e. equal-key entries keep their input order. -/
lemma filter_sort_by_key {T : Type} (k : Nat) :
    ∀ l : List (Nat × T),
      (sort_by_key l).filter (fun e => e.1 == k) =
        l.filter (fun e => e.1 == k)
  | [] => rfl
  | x :: xs => by
    show (List.orderedInsert (fun a b => a.1 ≤ b.1) x
        (sort_by_key xs)).filter (fun e => e.1 == k) = _
    rw [filter_orderedInsert_key k x (sort_by_key xs)]
    by_cases hx : x.1 = k
    · rw [if_pos hx, filter_sort_by_key k xs,
        List.filter_cons_of_pos (by simpa using hx)]
    · rw [if_neg hx, filter_sort_by_key k xs,
        List.filter_cons_of_neg (by simpa using hx)]

/-- If index `b` is the last position of a list whose element satisfies
`p`, that element is the last element of `filter p`. -/
lemma getLast_filter_of_last_idx {T : Type} (p : (Nat × T) → Bool)
    (s : List (Nat × T)) (b : Nat) (hb : b < s.length) (hpb : p s[b])
    (hafter : ∀ x ∈ s.drop (b + 1), ¬ p x) :
    (s.filter p).getLast? = some s[b] := by
  have hsplit : s.take (b + 1) ++ s.drop (b + 1) = s := List.take_append_drop _ s
  have hfilterdrop : (s.drop (b + 1)).filter p = [] :=
    List.filter_eq_nil_iff.mpr hafter
  have htake : s.take (b + 1) = s.take b ++ [s[b]] := by
    rw [List.take_succ, List.getElem?_eq_getElem hb]
    rfl
  calc (s.filter p).getLast?
      = ((s.take (b + 1) ++ s.drop (b + 1)).filter p).getLast? := by rw [hsplit]
    _ = ((s.take (b + 1)).filter p ++ []).getLast? := by
        rw [List.filter_append, hfilterdrop]
    _ = ((s.take b).filter p ++ [s[b]]).getLast? := by
        rw [List.append_nil, htake, List.filter_append]
        rw [List.filter_cons_of_pos hpb]
        rfl
    _ = some s[b] := List.getLast?_concat _

/-- Construction via `FromIterator` followed by `get`: for every input list,
`get k` returns the value of the *last* occurrence of `k` in input order
(or `none` when `k` never occurs).  This combines the stability of the
sort with the binary search landing on the last entry of an equal-key
run. -/
lemma from_iter_get {T : Type} (l : List (Nat × T)) (k : Nat) :
    (OwnedIntMap.from_iter l).get k =
      ((l.filter (fun e => e.1 == k)).getLast?).map Prod.snd := by
  have hs : ((sort_by_key l).map key_f).Pairwise (· ≤ ·) := sort_by_key_sorted l
  show IntMap.get ⟨sort_by_key l⟩ k = _
  rw [← filter_sort_by_key k l]
  by_cases hmem : k ∈ (sort_by_key l).map key_f
  · obtain ⟨i, hok⟩ := bsearch_mem hs hmem
    obtain ⟨hi1, hi2, hi3⟩ := bsearch_ok_spec hs hok
    have hi1' : i < (sort_by_key l).length := by
      rw [List.length_map] at hi1
      exact hi1
    have hkey : (sort_by_key l)[i].1 = k := by
      have : ((sort_by_key l).map key_f)[i] = k := by
        rw [← List.getD_eq_getElem _ 0 hi1]
        exact hi2
      rw [List.getElem_map] at this
      exact this
    have hlast : ((sort_by_key l).filter (fun e => e.1 == k)).getLast? =
        some (sort_by_key l)[i] := by
      refine getLast_filter_of_last_idx _ _ i hi1' (by simpa using hkey) ?_
      intro x hx
      obtain ⟨j, hj, hje⟩ := List.mem_iff_getElem.mp hx
      have hlen : ((sort_by_key l).drop (i + 1)).length =
          (sort_by_key l).length - (i + 1) := List.length_drop _ _
      have hb2 : i + 1 + j < (sort_by_key l).length := by omega
      have hidx : ((sort_by_key l).drop (i + 1))[j] =
          (sort_by_key l)[i + 1 + j] := List.getElem_drop _
      have hgt : k < (sort_by_key l)[i + 1 + j].1 := by
        have := hi3 (i + 1 + j) (by omega) (by rw [List.length_map]; omega)
        rw [List.getD_eq_getElem _ 0 (by rw [List.length_map]; omega),
          List.getElem_map] at this
        exact this
      rw [← hje, hidx]
      simp only [beq_iff_eq]
      omega
    unfold IntMap.get
    rw [hok]
    show Option.map Prod.snd ((sort_by_key l).get? i) = _
    rw [List.get?_eq_getElem?, List.getElem?_eq_getElem hi1', hlast]
  · have hnil : (sort_by_key l).filter (fun e => e.1 == k) = [] := by
      refine List.filter_eq_nil_iff.mpr ?_
      intro x hx
      simp only [beq_iff_eq]
      intro hxk
      exact hmem (List.mem_map.mpr ⟨x, hx, hxk⟩)
    unfold IntMap.get
    cases hres : binary_search_by_key ((sort_by_key l).map key_f) k with
    | ok i =>
      obtain ⟨hi1, hi2, _⟩ := bsearch_ok_spec hs hres
      exact absurd (by
        rw [← hi2, List.getD_eq_getElem _ 0 hi1]
        exact List.getElem_mem hi1) hmem
    | error i =>
      rw [hnil]
      rfl

/-- When the input keys are duplicate-free, `FromIterator` produces an
entry list satisfying the strictly-increasing key invariant. -/
lemma from_iter_sorted {T : Type} (l : List (Nat × T))
    (h : (l.map key_f).Nodup) :
    (((OwnedIntMap.from_iter l).entries).map key_f).Pairwise (· < ·) := by
  show (((sort_by_key l).map key_f)).Pairwise (· < ·)
  have hle : ((sort_by_key l).map key_f).Pairwise (· ≤ ·) := sort_by_key_sorted l
  have hperm : ((sort_by_key l).map key_f).Perm (l.map key_f) :=
    (sort_by_key_perm l).map key_f
  have hnd : ((sort_by_key l).map key_f).Nodup := hperm.nodup_iff.mpr h
  have := hle.and hnd
  exact this.imp (fun hab => Nat.lt_of_le_of_ne hab.1 hab.2)

/-! ## Codegen model (src/codegen/src/main.rs) -/

namespace Codegen

/-- Model of `enum MaybeUnknown<T> { Unknown, Known(T) }`: the tri-state numeric
field (`Unknown` vs. a known value; absence is an enclosing `Option`). -/
inductive MaybeUnknown (T : Type) where
  | unknown
  | known (x : T)
deriving DecidableEq

/-- Model of `MaybeUnknown::opt`: `Unknown ↦ None`, `Known(x) ↦ Some(x)`. -/
def MaybeUnknown.opt {T : Type} : MaybeUnknown T → Option T
  | .unknown => none
  | .known x => some x

/-- Model of `fn flatten<T>(x: Option<MaybeUnknown<T>>) -> Option<T>`:
`x.and_then(|x| x.opt())`. -/
def flatten {T : Type} (x : Option (MaybeUnknown T)) : Option T :=
  x.bind MaybeUnknown.opt

/-- Model of `struct Width { mm: MaybeUnknown<f32>, pixels: Option<MaybeUnknown<u16>> }`.
`f32` is modelled as `ℚ`, `u16` as `Nat`. -/
structure Width where
  mm : MaybeUnknown ℚ
  pixels : Option (MaybeUnknown Nat)

/-- Model of `struct Media { dpi: Option<MaybeUnknown<u16>>, width: Width }`. -/
structure Media where
  dpi : Option (MaybeUnknown Nat)
  width : Width

/-- Rust's `expr as u16` applied to a nonnegative-or-negative float value:
truncation toward zero with saturation into `[0, 65535]` (modelled on the
exact rational value). -/
def asU16 (q : ℚ) : Nat :=
  min 65535 (Int.toNat ⌊q⌋)

/-- Model of `Media::get_width` (src/codegen/src/main.rs lines 75–91), the unit
resolver.  The `f32` arithmetic is modelled exactly over `ℚ`:

```rust
match (self.width.mm.opt(), flatten(self.width.pixels)) {
    (Some(mm), Some(px)) => Some((mm, px)),
    (None, None) => None,
    (Some(mm), None) => {
        let dpi = flatten(self.dpi).unwrap();
        let px = f32::from(dpi) * mm * 25.4;
        Some((mm, px as u16))
    }
    (None, Some(px)) => {
        let dpi = flatten(self.dpi).unwrap();
        let dpmm = f32::from(dpi) / 25.4;
        let mm = f32::from(px) / dpmm;
        Some((mm, px))
    }
}
```

The `.unwrap()` panic is modelled as `.error`.  Note the `(Some(mm), None)`
arm really multiplies by `25.4` (it does not divide): the model is
faithful to the source, not to the documented mm→px relationship. -/
def Media.get_width (m : Media) : Except String (Option (ℚ × Nat)) :=
  match m.width.mm.opt, flatten m.width.pixels with
  | some mm, some px => .ok (some (mm, px))
  | none, none => .ok none
  | some mm, none =>
    match flatten m.dpi with
    | none => .error "called `Option::unwrap()` on a `None` value"
    | some dpi =>
      let px : ℚ := (dpi : ℚ) * mm * 25.4
      .ok (some (mm, asU16 px))
  | none, some px =>
    match flatten m.dpi with
    | none => .error "called `Option::unwrap()` on a `None` value"
    | some dpi =>
      let dpmm : ℚ := (dpi : ℚ) / 25.4
      let mm : ℚ := (px : ℚ) / dpmm
      .ok (some (mm, px))

/-- Model of `deserialize_encoding_data` (src/codegen/src/main.rs lines 25–37):
the input is an already-deserialized `Option<[String; 8]>` (strings
modelled as `List Char`, the `[_; 8]` arity being serde's concern);
`None` decodes to `None`, otherwise the characters of the 8 strings are
concatenated in order and the conversion to `Box<[char; 128]>` succeeds
iff the total count is exactly 128. -/
def deserialize_encoding_data (data : Option (List (List Char))) :
    Except String (Option (List Char)) :=
  match data with
  | none => .ok none
  | some segs =>
    let chars := segs.flatten
    if chars.length = 128 then .ok (some chars)
    else .error "invalid length, expected an array of 8 strings with 16 characters each"

end Codegen

/-! ## `Features` (src/lib.rs and the codegen emission)

`Features` wraps a `bitflags`-generated `FeaturesInner: u32`; the codegen
assigns flag `i` the mask `1u32 << i` and emits
`with_x(self, on) = self._with(FeaturesInner::X, on)`.  The `u32` bit set
is modelled as a `Nat` holding the same bits; `bitflags`' `union` is `|`
and `difference` is `self.bits & !other.bits`, with `!` the 32-bit
complement (`xor` with `2^32 - 1`). -/

/-- Model of `pub struct Features(FeaturesInner);` with `FeaturesInner: u32`. -/
structure Features where
  inner : Nat
deriving DecidableEq

/-- Model of `Features::new()`: `FeaturesInner::empty()`, i.e. no bits set. -/
def Features.new : Features := ⟨0⟩

/-- Model of `Features::_with(self, flag, on)` (src/lib.rs lines 112–121):
`on` ORs the flag in, `!on` removes it via `bitflags` `difference`. -/
def Features._with (self : Features) (flag : Nat) (is_on : Bool) : Features :=
  if is_on then ⟨self.inner ||| flag⟩
  else ⟨self.inner &&& (flag ^^^ (2 ^ 32 - 1))⟩

/-- The generated `with_<feature>(self, on)` for the feature assigned bit
`i`: `self._with(1u32 << i, on)` (codegen lines 208–226 emit one such
method per canonical feature name). -/
def Features.with_feature (self : Features) (i : Nat) (is_on : Bool) : Features :=
  self._with (1 <<< i) is_on

/-- Right-commutation of `&&&`, used for the disable/disable builder arm. -/
lemma land_right_comm (x a b : Nat) : (x &&& a) &&& b = (x &&& b) &&& a := by
  rw [Nat.land_assoc, Nat.land_comm a, ← Nat.land_assoc]

/-- Right-commutation of `|||`, used for the enable/enable builder arm. -/
lemma lor_right_comm (x a b : Nat) : (x ||| a) ||| b = (x ||| b) ||| a := by
  rw [Nat.lor_assoc, Nat.lor_comm a, ← Nat.lor_assoc]

/-- Bit `p` of the flag mask `1u32 << i`. -/
lemma testBit_flag (i p : Nat) : (1 <<< i).testBit p = decide (p = i) := by
  rw [Nat.shiftLeft_eq, one_mul, Nat.testBit_two_pow]
  simp [eq_comm]

/-- OR-ing in one distinct single-bit flag commutes with AND-ing out
another (the mixed case of builder-call commutation). -/
lemma lor_land_mask_comm (x i j : Nat) (hi : i < 32) (hj : j < 32)
    (hij : i ≠ j) :
    ((x ||| (1 <<< i)) &&& ((1 <<< j) ^^^ (2 ^ 32 - 1))) =
      ((x &&& ((1 <<< j) ^^^ (2 ^ 32 - 1))) ||| (1 <<< i)) := by
  have hji : ¬ j = i := fun h => hij h.symm
  apply Nat.eq_of_testBit_eq
  intro p
  simp only [Nat.testBit_lor, Nat.testBit_land, Nat.testBit_xor,
    testBit_flag, Nat.testBit_two_pow_sub_one]
  by_cases hp : p = i
  · have hpj : ¬ p = j := by omega
    simp [hp, hpj, hi, hji, hij]
  · by_cases hq : p = j
    · simp [hp, hq, hj, hji]
    · simp [hp, hq]

/-! ## Claim theorems -/

/-- C1: the claim states that with only the millimeter width and the dpi
present, resolution yields `px = floor(mm × dpi / 25.4)`, i.e. `79` for
`mm = 10`, `dpi = 203`.  The code instead computes
`f32::from(dpi) * mm * 25.4` — it multiplies by 25.4 where the documented
relationship (and the code's own px→mm branch, which divides by
`dpi / 25.4`) requires dividing — so it yields `px = 51562`.  At this
input the `f32` computation is exact: `203 × 10 = 2030` and
`2030 × 25.4f32` rounds to exactly `51562.0` (and `51562 < 2^16`, so the
`as u16` cast is the identity), so the rational model agrees with the
machine result bit-for-bit.  The second conjunct shows the claimed
formula indeed gives 79, exhibiting the divergence. -/
theorem C1_unit_resolver_divergence :
    Codegen.Media.get_width ⟨some (.known 203), ⟨.known 10, none⟩⟩ =
        .ok (some (10, 51562)) ∧
      Codegen.asU16 ((10 : ℚ) * 203 / 25.4) = 79 := by
  constructor
  · simp only [Codegen.Media.get_width, Codegen.MaybeUnknown.opt, Codegen.flatten,
      Option.bind]
    norm_num [Codegen.asU16]
    rfl
  · norm_num [Codegen.asU16]
    rfl

/-- C2 (counterexample): building an `OwnedIntMap` through `FromIterator`
from `[(5, 0), (5, 1)]` yields the entry list `[(5, 0), (5, 1)]` — the
duplicate key survives the sort, so the strictly-increasing duplicate-free
key invariant claimed for every input does *not* hold. -/
theorem C2_from_iter_invariant_cex :
    ¬ ((((OwnedIntMap.from_iter [(5, 0), (5, 1)] : OwnedIntMap Nat)).entries.map
        key_f).Pairwise (· < ·)) := by
  decide

/-- C2 (amended): `FromIterator` stably sorts the input by key, keeping
duplicate-key entries.  For every input, `get k` returns the value of the
last occurrence of `k` in input order ("last write wins"), because the
stable sort keeps an equal-key run in input order and the binary search
returns the last index of that run; the strictly-increasing duplicate-free
invariant holds whenever the input keys are duplicate-free. -/
theorem C2_from_iter_last_write_wins :
    (∀ (T : Type) (l : List (Nat × T)) (k : Nat),
      (OwnedIntMap.from_iter l).get k =
        ((l.filter (fun e => e.1 == k)).getLast?).map Prod.snd) ∧
    (∀ (T : Type) (l : List (Nat × T)), (l.map key_f).Nodup →
      (((OwnedIntMap.from_iter l).entries).map key_f).Pairwise (· < ·)) :=
  ⟨fun _ l k => from_iter_get l k, fun _ l h => from_iter_sorted l h⟩

/-- C2 (witness): last-write-wins on a duplicated key, and the invariant
on a duplicate-free input. -/
theorem C2_from_iter_witness :
    ((OwnedIntMap.from_iter [(5, 10), (3, 7), (5, 20)] : OwnedIntMap Nat).get 5 =
        some 20) ∧
      (((OwnedIntMap.from_iter [(5, 10), (3, 7)] : OwnedIntMap Nat)).entries.map
        key_f).Pairwise (· < ·) :=
  ⟨(C2_from_iter_last_write_wins.1 Nat [(5, 10), (3, 7), (5, 20)] 5).trans (by decide),
    C2_from_iter_last_write_wins.2 Nat [(5, 10), (3, 7)] (by decide)⟩

/-- C3: from a strictly key-sorted sequence of entries with keys in
[0, 255], `from_entries` succeeds with exactly those entries, `get`
returns the associated value for every key in the set and `none` for
every key outside it. -/
theorem C3_get_sorted_set (T : Type) (entries : List (Nat × T))
    (hsorted : (entries.map key_f).Pairwise (· < ·))
    (hrange : ∀ k ∈ entries.map key_f, k < 256) :
    IntMap.from_entries entries = some ⟨entries⟩ ∧
      (∀ k v, (k, v) ∈ entries → IntMap.get ⟨entries⟩ k = some v) ∧
      (∀ k, k ∉ entries.map key_f → IntMap.get ⟨entries⟩ k = none) := by
  refine ⟨?_, ?_, ?_⟩
  · rw [from_entries_eq, if_pos hsorted]
  · intro k v hmem
    exact (IntMap.get_spec ⟨entries⟩ hsorted k).1 v hmem
  · intro k hnot
    exact (IntMap.get_spec ⟨entries⟩ hsorted k).2 hnot

/-- C3 (witness). -/
theorem C3_get_sorted_set_witness :
    IntMap.from_entries [((1 : Nat), 10), (3, 30), (200, 5)] =
        some ⟨[(1, 10), (3, 30), (200, 5)]⟩ ∧
      IntMap.get ⟨[((1 : Nat), 10), (3, 30), (200, 5)]⟩ 3 = some 30 ∧
      IntMap.get ⟨[((1 : Nat), 10), (3, 30), (200, 5)]⟩ 4 = none :=
  have h := C3_get_sorted_set Nat [(1, 10), (3, 30), (200, 5)] (by decide) (by decide)
  ⟨h.1, h.2.1 3 30 (by decide), h.2.2 4 (by decide)⟩

/-- C4: `from_entries` fails exactly on the sequences whose keys are not
strictly increasing by index (out-of-order or duplicate keys), and on a
strictly increasing sequence returns a map holding exactly the given
entries; in particular it fails on keys `[5, 3, 9]` and on `[5, 5, 9]`. -/
theorem C4_from_entries_characterization :
    (∀ (T : Type) (entries : List (Nat × T)),
      IntMap.from_entries entries =
        if (entries.map key_f).Pairwise (· < ·) then some ⟨entries⟩ else none) ∧
      IntMap.from_entries [((5 : Nat), 0), (3, 1), (9, 2)] = none ∧
      IntMap.from_entries [((5 : Nat), 0), (5, 1), (9, 2)] = none :=
  ⟨fun _ entries => from_entries_eq entries, by decide, by decide⟩

/-- C5: on a map satisfying the sorted duplicate-free invariant, `insert`
of a present key returns the prior value, keeps the length and the
invariant; `insert` of an absent key returns `none`, grows the length by
exactly one and keeps the invariant; in both cases the new value is
found afterwards. -/
theorem C5_insert_spec (T : Type) (m : OwnedIntMap T)
    (hinv : (m.entries.map key_f).Pairwise (· < ·)) (k : Nat) (v : T) :
    (∀ vold, (k, vold) ∈ m.entries →
      (m.insert k v).1 = some vold ∧
        (m.insert k v).2.entries.length = m.entries.length ∧
        ((m.insert k v).2.entries.map key_f).Pairwise (· < ·) ∧
        (m.insert k v).2.get k = some v) ∧
    (k ∉ m.entries.map key_f →
      (m.insert k v).1 = none ∧
        (m.insert k v).2.entries.length = m.entries.length + 1 ∧
        ((m.insert k v).2.entries.map key_f).Pairwise (· < ·) ∧
        (m.insert k v).2.get k = some v) := by
  constructor
  · intro vold hmem
    obtain ⟨h1, h2, h3, h4⟩ := insert_spec_mem m hinv v hmem
    exact ⟨h1, h2, by rw [h3]; exact hinv, h4⟩
  · intro hnot
    exact insert_spec_new m hinv v hnot

/-- C5 (witness): overwrite of the present key 7, and fresh insert of the
absent key 4, on the invariant-satisfying map `{2 ↦ 5, 7 ↦ 9}`. -/
theorem C5_insert_witness :
    (((⟨[(2, 5), (7, 9)]⟩ : OwnedIntMap Nat).insert 7 1).1 = some 9 ∧
      ((⟨[(2, 5), (7, 9)]⟩ : OwnedIntMap Nat).insert 7 1).2.entries.length = 2 ∧
      ((⟨[(2, 5), (7, 9)]⟩ : OwnedIntMap Nat).insert 7 1).2.get 7 = some 1) ∧
    (((⟨[(2, 5), (7, 9)]⟩ : OwnedIntMap Nat).insert 4 1).1 = none ∧
      ((⟨[(2, 5), (7, 9)]⟩ : OwnedIntMap Nat).insert 4 1).2.entries.length = 3 ∧
      ((⟨[(2, 5), (7, 9)]⟩ : OwnedIntMap Nat).insert 4 1).2.get 4 = some 1) :=
  have h7 := (C5_insert_spec Nat ⟨[(2, 5), (7, 9)]⟩ (by decide) 7 1).1 9 (by decide)
  have h4 := (C5_insert_spec Nat ⟨[(2, 5), (7, 9)]⟩ (by decide) 4 1).2 (by decide)
  ⟨⟨h7.1, h7.2.1, h7.2.2.2⟩, ⟨h4.1, h4.2.1, h4.2.2.2⟩⟩

/-- C6: an absent code-page table decodes to `None` (not an error); a
present table of 8 strings decodes successfully iff the concatenation of
their characters has exactly 128 characters, in which case the result is
that concatenation; any other total makes decoding fail. -/
theorem C6_encoding_table_decode :
    Codegen.deserialize_encoding_data none = .ok none ∧
      ∀ segs : List (List Char), segs.length = 8 →
        (segs.flatten.length = 128 →
          Codegen.deserialize_encoding_data (some segs) = .ok (some segs.flatten)) ∧
        (segs.flatten.length ≠ 128 →
          ∀ r, Codegen.deserialize_encoding_data (some segs) ≠ .ok r) := by
  refine ⟨rfl, ?_⟩
  intro segs _
  constructor
  · intro h128
    show (if segs.flatten.length = 128 then _ else _) = _
    rw [if_pos h128]
  · intro hne r
    show (if segs.flatten.length = 128 then _ else _) ≠ _
    rw [if_neg hne]
    simp

/-- C6 (witness): 8 segments of 16 characters decode to their 128-char
concatenation; 8 segments of 15 characters (120 total) fail. -/
theorem C6_encoding_table_decode_witness :
    Codegen.deserialize_encoding_data
        (some (List.replicate 8 (List.replicate 16 'a'))) =
      .ok (some (List.replicate 8 (List.replicate 16 'a')).flatten) ∧
    Codegen.deserialize_encoding_data
        (some (List.replicate 8 (List.replicate 15 'a'))) ≠ .ok none :=
  ⟨(C6_encoding_table_decode.2 _ (by decide)).1 (by decide),
    (C6_encoding_table_decode.2 _ (by decide)).2 (by decide) none⟩

/-- C7: the unit resolver's case analysis — both widths present are
returned unchanged with no cross-check; neither present resolves to an
absent width (`ok none`, not an error); exactly one present with dpi
absent panics (fatally). -/
theorem C7_unit_resolver_cases :
    (∀ (m : Codegen.Media) mm px, m.width.mm.opt = some mm →
      Codegen.flatten m.width.pixels = some px →
      m.get_width = .ok (some (mm, px))) ∧
    (∀ m : Codegen.Media, m.width.mm.opt = none →
      Codegen.flatten m.width.pixels = none → m.get_width = .ok none) ∧
    (∀ (m : Codegen.Media) mm, m.width.mm.opt = some mm →
      Codegen.flatten m.width.pixels = none → Codegen.flatten m.dpi = none →
      ∃ e, m.get_width = .error e) ∧
    (∀ (m : Codegen.Media) px, m.width.mm.opt = none →
      Codegen.flatten m.width.pixels = some px → Codegen.flatten m.dpi = none →
      ∃ e, m.get_width = .error e) := by
  refine ⟨?_, ?_, ?_, ?_⟩
  · intro m mm px h1 h2
    unfold Codegen.Media.get_width
    rw [h1, h2]
  · intro m h1 h2
    unfold Codegen.Media.get_width
    rw [h1, h2]
  · intro m mm h1 h2 h3
    unfold Codegen.Media.get_width
    rw [h1, h2, h3]
    exact ⟨_, rfl⟩
  · intro m px h1 h2 h3
    unfold Codegen.Media.get_width
    rw [h1, h2, h3]
    exact ⟨_, rfl⟩

/-- C7 (witness): the four cases at concrete inputs, including the
claim's `mm = 10.0`, dpi absent, pixels absent failure. -/
theorem C7_unit_resolver_witness :
    Codegen.Media.get_width ⟨none, ⟨.known 1, some (.known 2)⟩⟩ = .ok (some (1, 2)) ∧
      Codegen.Media.get_width ⟨none, ⟨.unknown, none⟩⟩ = .ok none ∧
      (∃ e, Codegen.Media.get_width ⟨none, ⟨.known 10, none⟩⟩ = .error e) ∧
      (∃ e, Codegen.Media.get_width ⟨none, ⟨.unknown, some (.known 80)⟩⟩ = .error e) :=
  ⟨C7_unit_resolver_cases.1 _ 1 2 rfl rfl,
    C7_unit_resolver_cases.2.1 _ rfl rfl,
    C7_unit_resolver_cases.2.2.1 _ 10 rfl rfl rfl,
    C7_unit_resolver_cases.2.2.2 _ 80 rfl rfl rfl⟩

/-- C8: `extend` is transactional — an input that panics partway leaves
the map in exactly its pre-extend state (the `DropGuard` truncates the
appended tail), and a completing input adds all pairs, sorted once for
the whole batch (the result is a key-sorted permutation of the old
entries plus all produced pairs). -/
theorem C8_extend_transactional (T : Type) (m : OwnedIntMap T)
    (produced : List (Nat × T)) :
    OwnedIntMap.extend m produced true = m ∧
      ((OwnedIntMap.extend m produced false).entries).Perm
        (m.entries ++ produced) ∧
      (((OwnedIntMap.extend m produced false).entries).map key_f).Pairwise
        (· ≤ ·) := by
  refine ⟨?_, ?_, ?_⟩
  · cases m with
    | mk e =>
      show (⟨(e ++ produced).take e.length⟩ : OwnedIntMap T) = ⟨e⟩
      rw [List.take_left]
  · exact sort_by_key_perm _
  · exact sort_by_key_sorted _

/-- C9: over the `1u32 << i` flag masks the codegen assigns (bit indices
below 32), enabling then disabling a feature starting from
`Features::new()` returns `Features::new()`, and builder calls on two
distinct features commute from any starting value. -/
theorem C9_features_builder (i j : Nat) (hi : i < 32) (hj : j < 32)
    (hij : i ≠ j) :
    (Features.new.with_feature i true).with_feature i false = Features.new ∧
      ∀ (x : Features) (b1 b2 : Bool),
        (x.with_feature i b1).with_feature j b2 =
          (x.with_feature j b2).with_feature i b1 := by
  constructor
  · show (⟨(0 ||| (1 <<< i)) &&& ((1 <<< i) ^^^ (2 ^ 32 - 1))⟩ : Features) = ⟨0⟩
    congr 1
    apply Nat.eq_of_testBit_eq
    intro p
    simp only [Nat.testBit_lor, Nat.testBit_land, Nat.testBit_xor, Nat.zero_testBit,
      testBit_flag, Nat.testBit_two_pow_sub_one, Bool.false_or]
    by_cases hp : p = i
    · simp [hp, hi]
    · simp [hp]
  · intro x b1 b2
    cases b1 <;> cases b2
    · show (⟨(x.inner &&& ((1 <<< i) ^^^ (2 ^ 32 - 1))) &&&
          ((1 <<< j) ^^^ (2 ^ 32 - 1))⟩ : Features) =
        ⟨(x.inner &&& ((1 <<< j) ^^^ (2 ^ 32 - 1))) &&& ((1 <<< i) ^^^ (2 ^ 32 - 1))⟩
      congr 1
      exact land_right_comm x.inner _ _
    · show (⟨(x.inner &&& ((1 <<< i) ^^^ (2 ^ 32 - 1))) ||| (1 <<< j)⟩ : Features) =
        ⟨(x.inner ||| (1 <<< j)) &&& ((1 <<< i) ^^^ (2 ^ 32 - 1))⟩
      congr 1
      rw [lor_land_mask_comm x.inner j i hj hi (fun h => hij h.symm)]
    · show (⟨(x.inner ||| (1 <<< i)) &&& ((1 <<< j) ^^^ (2 ^ 32 - 1))⟩ : Features) =
        ⟨(x.inner &&& ((1 <<< j) ^^^ (2 ^ 32 - 1))) ||| (1 <<< i)⟩
      congr 1
      exact lor_land_mask_comm x.inner i j hi hj hij
    · show (⟨(x.inner ||| (1 <<< i)) ||| (1 <<< j)⟩ : Features) =
        ⟨(x.inner ||| (1 <<< j)) ||| (1 <<< i)⟩
      congr 1
      exact lor_right_comm x.inner _ _

/-- C9 (witness): round-trip and commutation at flags 0 and 1, starting
from the arbitrary bit pattern 5. -/
theorem C9_features_builder_witness :
    (Features.new.with_feature 0 true).with_feature 0 false = Features.new ∧
      ((⟨5⟩ : Features).with_feature 0 true).with_feature 1 false =
        ((⟨5⟩ : Features).with_feature 1 false).with_feature 0 true :=
  ⟨(C9_features_builder 0 1 (by decide) (by decide) (by decide)).1,
    (C9_features_builder 0 1 (by decide) (by decide) (by decide)).2 ⟨5⟩ true false⟩

/-- C10: the `ToOwned` impl for `IntMap` is `todo!()`, so for every map
the conversion panics unconditionally — no `IntMap` can be turned into an
`OwnedIntMap` through this trait (including via `Cow::to_mut` /
`Cow::into_owned`, which call it). -/
theorem C10_to_owned_panics :
    ∀ (T : Type) (m : IntMap T), ∃ e, IntMap.to_owned m = .error e :=
  fun _ _ => ⟨_, rfl⟩

end EscposDb
